import Mathlib

/-!
Verification of the quantization core of a VQ-VAE implementation
(`model.py`): the nearest-neighbor quantizer `VQVAEQuantize`, the
Gumbel-softmax quantizer `GumbelQuantize`, the `VQVAE` orchestrator's
diagnostics and optimizer setup, and the encoder/decoder shape law.

Modelling conventions (shallow embedding):
* Tensors over spatial grids are flattened to lists of per-location
  vectors (`List (List ℚ)`), matching the code's own
  `(B, C, H, W) -> (B*H*W, C)` flattening; the `permute`/`reshape`
  calls are pure layout changes and are the identity in this view.
* Exact rationals stand for the code's floating-point values in the
  algebraic claims; the real numbers `ℝ` are used where the code calls
  `log` / `exp` / `softmax`.
* `Tensor.detach` does not change the forward value, only gradient
  flow; its value semantics is the identity function `detach`.
* External collaborators (`scipy.cluster.vq.kmeans2`, `torch.randperm`,
  the Gumbel noise sample inside `F.gumbel_softmax`) are abstracted as
  parameters, since only their interface matters to the claims.
-/

/-- Value semantics of `Tensor.detach`: the forward value is unchanged
(only the gradient is suppressed, which a value-level model does not see). -/
def detach (x : ℚ) : ℚ := x

/-- Dot product of two flat vectors (`a @ b` on matching rows). -/
def dot (a b : List ℚ) : ℚ := (List.zipWith (fun x y => x * y) a b).sum

/-- Squared Euclidean norm, `t.pow(2).sum(1)` applied to one row. -/
def sqNorm (a : List ℚ) : ℚ := (a.map (fun x => x ^ 2)).sum

/-- Naive squared Euclidean distance `‖a − b‖²`: the reference
computation the spec asks to compare against (materializing the
pairwise difference). -/
def sqDistNaive (a b : List ℚ) : ℚ :=
  ((List.zipWith (fun x y => x - y) a b).map (fun x => x ^ 2)).sum

/-- Squared distance via the expansion used at `model.py:48-52`:
`flatten.pow(2).sum(1) - 2 * flatten @ embed.weight.t() + embed.weight.pow(2).sum(1).t()`. -/
def sqDistExpand (a b : List ℚ) : ℚ := sqNorm a - 2 * dot a b + sqNorm b

/-- Index of the first occurrence of the maximum of a list, the
behaviour of `tensor.max(dim)` on one reduced row ("the indices of the
first maximal value are returned"). Empty list maps to 0. -/
def argmaxFirst : List ℚ → Nat
  | [] => 0
  | [_] => 0
  | x :: y :: ys =>
    let j := argmaxFirst (y :: ys)
    if x < (y :: ys).getD j 0 then j + 1 else 0

/-- Nearest-neighbor code index for one projected vector, as computed
at `model.py:48-53`: build the expanded squared distances to every
codebook row and take `(-dist).max(1)`, i.e. the first argmax of the
negated distances. -/
def nnIndex (codebook : List (List ℚ)) (v : List ℚ) : Nat :=
  argmaxFirst (codebook.map (fun e => -(sqDistExpand v e)))

/-- First index attaining the minimum of a list: the reference
tie-breaking rule of the spec (lowest index wins). -/
def argminFirst (l : List ℚ) : Nat := argmaxFirst (l.map (fun x => -x))

/-- `F.embedding(embed_id, self.embed.weight)` on one index
(`model.py:65-66`): row lookup in the codebook. -/
def embed_code (codebook : List (List ℚ)) (i : Nat) : List ℚ :=
  codebook.getD i []

-- Basic lemmas about argmaxFirst ------------------------------------------

theorem argmaxFirst_lt_length (l : List ℚ) (h : l ≠ []) :
    argmaxFirst l < l.length := by
  induction l with
  | nil => simp at h
  | cons x xs ih =>
    cases xs with
    | nil => simp [argmaxFirst]
    | cons y ys =>
      have htail := ih (by simp)
      simp only [argmaxFirst]
      split
      · simpa using Nat.succ_lt_succ htail
      · simp

theorem argmaxFirst_is_max (l : List ℚ) (j : Nat) (hj : j < l.length) :
    l.getD j 0 ≤ l.getD (argmaxFirst l) 0 := by
  induction l generalizing j with
  | nil => simp at hj
  | cons x xs ih =>
    cases xs with
    | nil =>
      have hj0 : j = 0 := by simpa using Nat.lt_one_iff.mp (by simpa using hj)
      simp [argmaxFirst, hj0]
    | cons y ys =>
      simp only [argmaxFirst]
      split
      next hlt =>
        -- head is strictly below the tail max: answer is in the tail
        cases j with
        | zero =>
          simpa using le_of_lt hlt
        | succ k =>
          have hk : k < (y :: ys).length := by
            simpa using Nat.lt_of_succ_lt_succ hj
          simpa using ih k hk
      next hlt =>
        -- head is at least the tail max: answer is the head
        push_neg at hlt
        cases j with
        | zero => simp
        | succ k =>
          have hk : k < (y :: ys).length := by
            simpa using Nat.lt_of_succ_lt_succ hj
          have h1 := ih k hk
          simpa using le_trans h1 hlt

theorem argmaxFirst_first (l : List ℚ) (j : Nat) (hj : j < argmaxFirst l) :
    l.getD j 0 < l.getD (argmaxFirst l) 0 := by
  induction l generalizing j with
  | nil => simp [argmaxFirst] at hj
  | cons x xs ih =>
    cases xs with
    | nil => simp [argmaxFirst] at hj
    | cons y ys =>
      simp only [argmaxFirst] at hj ⊢
      split
      next hlt =>
        -- answer is in the tail, at position argmaxFirst (y::ys) + 1
        rw [if_pos hlt] at hj
        cases j with
        | zero => simpa using hlt
        | succ k =>
          have hk : k < argmaxFirst (y :: ys) := Nat.lt_of_succ_lt_succ hj
          simpa using ih k hk
      next hlt =>
        -- answer is the head at position 0, nothing is before it
        rw [if_neg hlt] at hj
        omega

-- Distance expansion ------------------------------------------------------

theorem sqDistNaive_eq_expand (a b : List ℚ) (h : a.length = b.length) :
    sqDistNaive a b = sqDistExpand a b := by
  induction a generalizing b with
  | nil =>
    cases b with
    | nil => simp [sqDistNaive, sqDistExpand, sqNorm, dot]
    | cons y ys => simp at h
  | cons x xs ih =>
    cases b with
    | nil => simp at h
    | cons y ys =>
      have h' : xs.length = ys.length := by simpa using h
      have := ih ys h'
      simp only [sqDistNaive, sqDistExpand, sqNorm, dot, List.zipWith_cons_cons,
        List.map_cons, List.sum_cons] at this ⊢
      ring_nf
      ring_nf at this
      linarith

/-- Evaluating `getD` under a `map`, for an in-range index and arbitrary
defaults on the two sides. -/
theorem getD_map_lt {α β : Type} (f : α → β) (l : List α) (j : Nat)
    (hj : j < l.length) (d : β) (d' : α) :
    (l.map f).getD j d = f (l.getD j d') := by
  induction l generalizing j with
  | nil => simp at hj
  | cons x xs ih =>
    cases j with
    | zero => simp
    | succ k => simpa using ih k (by simpa using Nat.lt_of_succ_lt_succ hj)

theorem getD_mem_of_lt {α : Type} (l : List α) (j : Nat) (hj : j < l.length)
    (d : α) : l.getD j d ∈ l := by
  rw [List.getD_eq_getElem l d hj]
  exact List.getElem_mem hj

-- VQVAEQuantize: state and forward pass -----------------------------------

/-- Persistent state of one `VQVAEQuantize` instance: the `training`
mode bit (set externally by the orchestrator), the `data_initialized`
buffer registered at `model.py:29` (a one-element float tensor, 0 or
1), and the codebook `embed.weight`. -/
structure QState where
  training : Bool
  data_initialized : ℚ
  embed_weight : List (List ℚ)

/-- Fresh instance after `__init__`: the buffer starts at
`torch.zeros(1)` (`model.py:29`); the codebook starts at some
arbitrary random initialization `w0`. -/
def QState.fresh (training : Bool) (w0 : List (List ℚ)) : QState :=
  { training := training, data_initialized := 0, embed_weight := w0 }

/-- Whether the k-means seeding branch at `model.py:40` fires on a
forward call in state `st`: `self.training and self.data_initialized.item() == 0`. -/
def seedRuns (st : QState) : Bool :=
  st.training && decide (st.data_initialized = 0)

/-- The seeding block at `model.py:40-45`. `kmeans` abstracts the
external collaborators of the block — `torch.randperm`, the `[:20000]`
subsample and `scipy.cluster.vq.kmeans2` — as one opaque function from
the flattened projected vectors to the `n_embed` cluster centers that
are copied into `embed.weight.data`; the claims depend only on when the
block fires, never on the centers it produces. On firing, the flag is
set to 1 (`self.data_initialized.fill_(1)`). -/
def seedStep (kmeans : List (List ℚ) → List (List ℚ)) (st : QState)
    (flatten : List (List ℚ)) : QState :=
  if seedRuns st then
    { st with embed_weight := kmeans flatten, data_initialized := 1 }
  else st

/-- The 1×1 convolution `self.proj` applied at one spatial location:
a learned affine map from `num_hiddens` channels to `embedding_dim`
channels (`model.py:26,35`). -/
def conv1x1 (W : List (List ℚ)) (b : List ℚ) (x : List ℚ) : List ℚ :=
  List.zipWith (fun row bi => dot row x + bi) W b

/-- Elementwise difference of two equally-shaped grids. -/
def gridSub (a b : List (List ℚ)) : List (List ℚ) :=
  List.zipWith (fun ra rb => List.zipWith (fun x y => x - y) ra rb) a b

/-- Elementwise square, `t.pow(2)`. -/
def gridSq (g : List (List ℚ)) : List (List ℚ) :=
  g.map (List.map (fun x => x ^ 2))

/-- Elementwise `Tensor.detach` (value-level identity). -/
def gridDetach (g : List (List ℚ)) : List (List ℚ) :=
  g.map (List.map detach)

/-- Mean over all elements of a grid, `t.mean()`: the sum of all
entries divided by the element count. -/
def gridMean (g : List (List ℚ)) : ℚ :=
  (g.map List.sum).sum / ((g.map List.length).sum : ℕ)

/-- Plain (unscaled) mean squared error between two equally-shaped
grids: the mean of the elementwise squared differences. This is the
spec's reference notion of "mean squared error ... plain means of
elementwise squared differences". -/
def msePlain (a b : List (List ℚ)) : ℚ := gridMean (gridSq (gridSub a b))

/-- The auxiliary loss computed at `model.py:58-59`:
`commitment_cost * (z_q.detach() - z_e).pow(2).mean() + (z_q - z_e.detach()).pow(2).mean()`
with `commitment_cost = 0.25`. -/
def vqDiff (z_q z_e : List (List ℚ)) : ℚ :=
  (0.25 : ℚ) * gridMean (gridSq (gridSub (gridDetach z_q) z_e))
    + gridMean (gridSq (gridSub z_q (gridDetach z_e)))

/-- The straight-through recombination at `model.py:61`:
`z_q = z_e + (z_q - z_e).detach()`, elementwise over the grid. -/
def straightThrough (z_e z_q : List (List ℚ)) : List (List ℚ) :=
  List.zipWith (fun e q => List.zipWith (fun a c => a + detach (c - a)) e q) z_e z_q

/-- Outputs of one `VQVAEQuantize.forward` call: the quantized grid
`z_q`, the scalar auxiliary loss `diff` and the index grid `ind`
(`model.py:63`). -/
structure QOut where
  z_q : List (List ℚ)
  diff : ℚ
  ind : List Nat

/-- The quantization core of `VQVAEQuantize.forward` (`model.py:48-63`),
acting on the projected, flattened vectors `z_e` with the current
codebook: nearest-neighbor index per location via the expanded
distances, gather of codebook rows, auxiliary loss, and straight-through
recombination. -/
def quantizeCore (codebook : List (List ℚ)) (z_e : List (List ℚ)) : QOut :=
  let ind := z_e.map (nnIndex codebook)
  let gathered := ind.map (embed_code codebook)
  { z_q := straightThrough z_e gathered
    diff := vqDiff gathered z_e
    ind := ind }

/-- One full `VQVAEQuantize.forward` call (`model.py:31-63`): project
each location with the 1×1 convolution (`Wp`, `bp`), run the one-time
k-means seeding block against the current state, then quantize with the
(possibly just-seeded) codebook. Returns the successor state and the
outputs. -/
def VQVAEQuantize.forward (kmeans : List (List ℚ) → List (List ℚ))
    (Wp : List (List ℚ)) (bp : List ℚ) (st : QState) (z : List (List ℚ)) :
    QState × QOut :=
  let z_e := z.map (conv1x1 Wp bp)
  let st2 := seedStep kmeans st z_e
  (st2, quantizeCore st2.embed_weight z_e)

-- Nearest-neighbor selection: characterization ----------------------------

/-- On well-formed rows, the negated expanded distance list used inside
`nnIndex` agrees entrywise (in range) with the negation of the naive
squared-distance list. -/
theorem negExpand_getD (codebook : List (List ℚ)) (v : List ℚ) (d j : Nat)
    (hlen : ∀ e ∈ codebook, e.length = d) (hv : v.length = d)
    (hj : j < codebook.length) :
    (codebook.map (fun e => -(sqDistExpand v e))).getD j 0
      = -((codebook.map (sqDistNaive v)).getD j 0) := by
  rw [getD_map_lt (fun e => -(sqDistExpand v e)) codebook j hj 0 []]
  rw [getD_map_lt (sqDistNaive v) codebook j hj 0 []]
  have hmem := getD_mem_of_lt codebook j hj []
  have he : (codebook.getD j []).length = d := hlen _ hmem
  rw [sqDistNaive_eq_expand v (codebook.getD j []) (by rw [hv, he])]

/-- Characterization of `nnIndex`: it is in range, attains the global
minimum of the naive squared distances, and is the first index doing
so; moreover it coincides with the reference `argminFirst` of the
naive distance list. -/
theorem nnIndex_spec (codebook : List (List ℚ)) (v : List ℚ) (d : Nat)
    (hcb : codebook ≠ []) (hlen : ∀ e ∈ codebook, e.length = d)
    (hv : v.length = d) :
    nnIndex codebook v < codebook.length ∧
    (∀ j, j < codebook.length →
      (codebook.map (sqDistNaive v)).getD (nnIndex codebook v) 0
        ≤ (codebook.map (sqDistNaive v)).getD j 0) ∧
    (∀ j, j < nnIndex codebook v →
      (codebook.map (sqDistNaive v)).getD (nnIndex codebook v) 0
        < (codebook.map (sqDistNaive v)).getD j 0) ∧
    nnIndex codebook v = argminFirst (codebook.map (sqDistNaive v)) := by
  have hne : codebook.map (fun e => -(sqDistExpand v e)) ≠ [] := by
    simpa using hcb
  have hlt : nnIndex codebook v < codebook.length := by
    have := argmaxFirst_lt_length _ hne
    simpa [nnIndex] using this
  refine ⟨hlt, ?_, ?_, ?_⟩
  · intro j hj
    have h1 := argmaxFirst_is_max (codebook.map (fun e => -(sqDistExpand v e))) j
      (by simpa using hj)
    rw [negExpand_getD codebook v d j hlen hv hj] at h1
    rw [negExpand_getD codebook v d (argmaxFirst (codebook.map (fun e => -(sqDistExpand v e))))
      hlen hv (by simpa [nnIndex] using hlt)] at h1
    simp only [nnIndex]
    linarith
  · intro j hj
    have hjlen : j < codebook.length := lt_trans hj hlt
    have h1 := argmaxFirst_first (codebook.map (fun e => -(sqDistExpand v e))) j
      (by simpa [nnIndex] using hj)
    rw [negExpand_getD codebook v d j hlen hv hjlen] at h1
    rw [negExpand_getD codebook v d (argmaxFirst (codebook.map (fun e => -(sqDistExpand v e))))
      hlen hv (by simpa [nnIndex] using hlt)] at h1
    simp only [nnIndex]
    linarith
  · have hmapeq : codebook.map (fun e => -(sqDistExpand v e))
        = (codebook.map (sqDistNaive v)).map (fun x => -x) := by
      rw [List.map_map]
      apply List.map_congr_left
      intro e he
      simp only [Function.comp]
      rw [sqDistNaive_eq_expand v e (by rw [hv, hlen e he])]
    simp only [nnIndex, argminFirst, hmapeq]

/-- C1: for every input feature grid, the nearest-neighbor quantizer's
output index grid selects, at each spatial location, the codebook index
whose squared Euclidean distance to the projected feature vector at
that location is the global minimum over all codebook entries (computed
in the code via the expansion `‖a−b‖² = ‖a‖² − 2a·b + ‖b‖²`), with ties
broken by the lowest index: the selected index is in range, its naive
squared distance is a global minimum, every strictly earlier index has
strictly larger distance, and the selection equals the brute-force
first-argmin reference. -/
theorem C1_nn_index_global_argmin (codebook z_e : List (List ℚ)) (d t : Nat)
    (hcb : codebook ≠ []) (hlen : ∀ e ∈ codebook, e.length = d)
    (hz : ∀ v ∈ z_e, v.length = d) (ht : t < z_e.length) :
    (quantizeCore codebook z_e).ind.getD t 0 < codebook.length ∧
    (∀ j, j < codebook.length →
      (codebook.map (sqDistNaive (z_e.getD t []))).getD
          ((quantizeCore codebook z_e).ind.getD t 0) 0
        ≤ (codebook.map (sqDistNaive (z_e.getD t []))).getD j 0) ∧
    (∀ j, j < (quantizeCore codebook z_e).ind.getD t 0 →
      (codebook.map (sqDistNaive (z_e.getD t []))).getD
          ((quantizeCore codebook z_e).ind.getD t 0) 0
        < (codebook.map (sqDistNaive (z_e.getD t []))).getD j 0) ∧
    (quantizeCore codebook z_e).ind.getD t 0
      = argminFirst (codebook.map (sqDistNaive (z_e.getD t []))) := by
  have hind : (quantizeCore codebook z_e).ind.getD t 0
      = nnIndex codebook (z_e.getD t []) := by
    simp only [quantizeCore]
    exact getD_map_lt (nnIndex codebook) z_e t ht 0 []
  rw [hind]
  exact nnIndex_spec codebook (z_e.getD t []) d hcb hlen
    (hz _ (getD_mem_of_lt z_e t ht []))

/-- Concrete instance of `C1_nn_index_global_argmin`: codebook
`[[0],[2]]`, one projected vector `[3]`; the selected index is 1. -/
theorem C1_nn_index_global_argmin_witness :
    (([[0], [2]] : List (List ℚ)) ≠ [] ∧
      (∀ e ∈ ([[0], [2]] : List (List ℚ)), e.length = 1) ∧
      (∀ v ∈ ([[(3 : ℚ)]] : List (List ℚ)), v.length = 1) ∧
      0 < ([[(3 : ℚ)]] : List (List ℚ)).length) ∧
    ((quantizeCore [[0], [2]] [[(3 : ℚ)]]).ind.getD 0 0 < ([[0], [2]] : List (List ℚ)).length ∧
    (∀ j, j < ([[0], [2]] : List (List ℚ)).length →
      (([[0], [2]] : List (List ℚ)).map (sqDistNaive (([[(3 : ℚ)]] : List (List ℚ)).getD 0 []))).getD
          ((quantizeCore [[0], [2]] [[(3 : ℚ)]]).ind.getD 0 0) 0
        ≤ (([[0], [2]] : List (List ℚ)).map (sqDistNaive (([[(3 : ℚ)]] : List (List ℚ)).getD 0 []))).getD j 0) ∧
    (∀ j, j < (quantizeCore [[0], [2]] [[(3 : ℚ)]]).ind.getD 0 0 →
      (([[0], [2]] : List (List ℚ)).map (sqDistNaive (([[(3 : ℚ)]] : List (List ℚ)).getD 0 []))).getD
          ((quantizeCore [[0], [2]] [[(3 : ℚ)]]).ind.getD 0 0) 0
        < (([[0], [2]] : List (List ℚ)).map (sqDistNaive (([[(3 : ℚ)]] : List (List ℚ)).getD 0 []))).getD j 0) ∧
    (quantizeCore [[0], [2]] [[(3 : ℚ)]]).ind.getD 0 0
      = argminFirst (([[0], [2]] : List (List ℚ)).map (sqDistNaive (([[(3 : ℚ)]] : List (List ℚ)).getD 0 [])))) :=
  ⟨⟨by decide, by decide, by decide, by decide⟩,
    C1_nn_index_global_argmin [[0], [2]] [[(3 : ℚ)]] 1 0
      (by decide) (by decide) (by decide) (by decide)⟩

-- Straight-through estimator: forward value --------------------------------

theorem nnIndex_lt_length (codebook : List (List ℚ)) (v : List ℚ)
    (hcb : codebook ≠ []) : nnIndex codebook v < codebook.length := by
  have := argmaxFirst_lt_length (codebook.map (fun e => -(sqDistExpand v e)))
    (by simpa using hcb)
  simpa [nnIndex] using this

theorem rowStraightThrough_eq (e q : List ℚ) (h : e.length = q.length) :
    List.zipWith (fun a c => a + detach (c - a)) e q = q := by
  induction e generalizing q with
  | nil =>
    cases q with
    | nil => simp
    | cons y ys => simp at h
  | cons x xs ih =>
    cases q with
    | nil => simp at h
    | cons y ys =>
      simp only [List.zipWith_cons_cons]
      have hx : x + detach (y - x) = y := by simp [detach]
      rw [ih ys (by simpa using h), hx]

theorem straightThrough_eq (a q : List (List ℚ))
    (h : List.Forall₂ (fun e r => e.length = r.length) a q) :
    straightThrough a q = q := by
  induction h with
  | nil => simp [straightThrough]
  | cons hxy htail ih =>
    simp only [straightThrough, List.zipWith_cons_cons] at ih ⊢
    rw [rowStraightThrough_eq _ _ hxy, ih]

/-- C2: the quantized grid returned by the nearest-neighbor quantizer
is numerically equal to the gathered codebook vectors at the selected
indices: the straight-through recombination
`z_e + (z_q - z_e).detach()` leaves the forward value `z_q` unchanged
(the detached subtraction only alters gradients, which the value
semantics does not see). -/
theorem C2_straight_through_value (codebook z_e : List (List ℚ)) (d : Nat)
    (hcb : codebook ≠ []) (hlen : ∀ e ∈ codebook, e.length = d)
    (hz : ∀ v ∈ z_e, v.length = d) :
    (quantizeCore codebook z_e).z_q
      = (quantizeCore codebook z_e).ind.map (embed_code codebook) := by
  simp only [quantizeCore]
  apply straightThrough_eq
  rw [List.map_map]
  refine List.forall₂_map_right_iff.mpr (List.forall₂_same.mpr ?_)
  intro v hv
  simp only [Function.comp]
  have hi : nnIndex codebook v < codebook.length := nnIndex_lt_length codebook v hcb
  have hmem := getD_mem_of_lt codebook (nnIndex codebook v) hi []
  rw [hz v hv, embed_code, hlen _ hmem]

/-- Concrete instance of `C2_straight_through_value`: codebook
`[[0],[2]]`, projected grid `[[3]]`. -/
theorem C2_straight_through_value_witness :
    (([[0], [2]] : List (List ℚ)) ≠ [] ∧
      (∀ e ∈ ([[0], [2]] : List (List ℚ)), e.length = 1) ∧
      (∀ v ∈ ([[(3 : ℚ)]] : List (List ℚ)), v.length = 1)) ∧
    (quantizeCore [[0], [2]] [[(3 : ℚ)]]).z_q
      = (quantizeCore [[0], [2]] [[(3 : ℚ)]]).ind.map (embed_code [[0], [2]]) :=
  ⟨⟨by decide, by decide, by decide⟩,
    C2_straight_through_value [[0], [2]] [[(3 : ℚ)]] 1
      (by decide) (by decide) (by decide)⟩

/-- C4: the auxiliary loss of the nearest-neighbor quantizer equals
0.25 times the plain mean squared error between the gathered codebook
vectors (detached, which does not change the value) and the projected
vectors, plus the plain mean squared error between the gathered
codebook vectors and the (detached) projected vectors — unscaled means
of elementwise squared differences, with no extra factor of 0.5. -/
theorem C4_aux_loss_formula (codebook z_e : List (List ℚ)) :
    (quantizeCore codebook z_e).diff
      = (0.25 : ℚ) * msePlain ((quantizeCore codebook z_e).ind.map (embed_code codebook)) z_e
        + msePlain ((quantizeCore codebook z_e).ind.map (embed_code codebook)) z_e := by
  have hrow : ∀ l : List ℚ, l.map detach = l := by
    intro l
    induction l with
    | nil => rfl
    | cons x xs ih => simp [detach, ih]
  have hd : ∀ g : List (List ℚ), gridDetach g = g := by
    intro g
    induction g with
    | nil => rfl
    | cons r rs ih => simp only [gridDetach, List.map_cons] at ih ⊢; rw [hrow r, ih]
  simp only [quantizeCore, vqDiff, msePlain, hd]

-- One-time k-means seeding lifecycle ---------------------------------------

/-- The orchestrator toggling `module.train()` / `module.eval()`
before a forward call: only the `training` bit changes. -/
def setTraining (st : QState) (b : Bool) : QState :=
  { st with training := b }

/-- Run a sequence of forward calls against one quantizer instance.
Each list element is (training-mode bit chosen by the orchestrator for
that call, input grid); the result is the final state together with the
number of calls on which the seeding block fired. -/
def runCalls (kmeans : List (List ℚ) → List (List ℚ))
    (Wp : List (List ℚ)) (bp : List ℚ) :
    QState → List (Bool × List (List ℚ)) → QState × Nat
  | st, [] => (st, 0)
  | st, c :: rest =>
    let st1 := setTraining st c.1
    let fire : Nat := if seedRuns st1 then 1 else 0
    let st2 := (VQVAEQuantize.forward kmeans Wp bp st1 c.2).1
    let r := runCalls kmeans Wp bp st2 rest
    (r.1, fire + r.2)

theorem forward_state_eq_seedStep (kmeans : List (List ℚ) → List (List ℚ))
    (Wp : List (List ℚ)) (bp : List ℚ) (st : QState) (z : List (List ℚ)) :
    (VQVAEQuantize.forward kmeans Wp bp st z).1
      = seedStep kmeans st (z.map (conv1x1 Wp bp)) := rfl

theorem seedStep_flag_ne_zero (kmeans : List (List ℚ) → List (List ℚ))
    (st : QState) (flatten : List (List ℚ)) (h : st.data_initialized ≠ 0) :
    seedStep kmeans st flatten = st := by
  simp [seedStep, seedRuns, h]

theorem seedStep_preserves_ne_zero (kmeans : List (List ℚ) → List (List ℚ))
    (st : QState) (flatten : List (List ℚ)) (h : st.data_initialized ≠ 0) :
    (seedStep kmeans st flatten).data_initialized ≠ 0 := by
  rw [seedStep_flag_ne_zero kmeans st flatten h]
  exact h

theorem runCalls_count_zero (kmeans : List (List ℚ) → List (List ℚ))
    (Wp : List (List ℚ)) (bp : List ℚ) (st : QState)
    (calls : List (Bool × List (List ℚ))) (h : st.data_initialized ≠ 0) :
    (runCalls kmeans Wp bp st calls).2 = 0 := by
  induction calls generalizing st with
  | nil => simp [runCalls]
  | cons c rest ih =>
    have h1 : (setTraining st c.1).data_initialized ≠ 0 := h
    have hfire : seedRuns (setTraining st c.1) = false := by
      simp [seedRuns, h1]
    have hstep : (VQVAEQuantize.forward kmeans Wp bp (setTraining st c.1) c.2).1
        = setTraining st c.1 := by
      rw [forward_state_eq_seedStep]
      exact seedStep_flag_ne_zero kmeans _ _ h1
    simp only [runCalls, hfire, hstep]
    simpa using ih (setTraining st c.1) h1

theorem seedStep_fired_flag (kmeans : List (List ℚ) → List (List ℚ))
    (st : QState) (flatten : List (List ℚ)) (h : seedRuns st = true) :
    (seedStep kmeans st flatten).data_initialized = 1 := by
  simp [seedStep, h]

theorem runCalls_count_le_one (kmeans : List (List ℚ) → List (List ℚ))
    (Wp : List (List ℚ)) (bp : List ℚ) (st : QState)
    (calls : List (Bool × List (List ℚ))) :
    (runCalls kmeans Wp bp st calls).2 ≤ 1 := by
  induction calls generalizing st with
  | nil => simp [runCalls]
  | cons c rest ih =>
    by_cases hfire : seedRuns (setTraining st c.1) = true
    · have h1 : ((VQVAEQuantize.forward kmeans Wp bp (setTraining st c.1) c.2).1).data_initialized ≠ 0 := by
        rw [forward_state_eq_seedStep]
        rw [seedStep_fired_flag kmeans _ _ hfire]
        norm_num
      have hrest := runCalls_count_zero kmeans Wp bp _ rest h1
      simp only [runCalls, hfire, if_true]
      omega
    · have hf : seedRuns (setTraining st c.1) = false := by
        simpa using hfire
      simp only [runCalls, hf, if_false]
      simpa using ih _

/-- C3: for every `VQVAEQuantize` instance and every sequence of
forward calls, the k-means seeding block fires at most once over the
instance's lifetime; it fires exactly once across any nonempty sequence
of training-mode calls starting from a fresh instance; it never fires
in evaluation mode, and an evaluation-mode forward call mutates neither
the codebook weights nor the initialization flag; and it never fires
once the initialization flag is set. -/
theorem C3_seeding_once (kmeans : List (List ℚ) → List (List ℚ))
    (Wp : List (List ℚ)) (bp : List ℚ) :
    (∀ st calls, (runCalls kmeans Wp bp st calls).2 ≤ 1) ∧
    (∀ b0 w0 calls, calls ≠ [] → (∀ c ∈ calls, (c : Bool × List (List ℚ)).1 = true) →
      (runCalls kmeans Wp bp (QState.fresh b0 w0) calls).2 = 1) ∧
    (∀ st z, seedRuns (setTraining st false) = false ∧
      (VQVAEQuantize.forward kmeans Wp bp (setTraining st false) z).1
        = setTraining st false) ∧
    (∀ st z, st.data_initialized ≠ 0 →
      seedRuns st = false ∧ (VQVAEQuantize.forward kmeans Wp bp st z).1 = st) := by
  refine ⟨runCalls_count_le_one kmeans Wp bp, ?_, ?_, ?_⟩
  · intro b0 w0 calls hne hall
    cases calls with
    | nil => exact absurd rfl hne
    | cons c rest =>
      have hc : c.1 = true := hall c (by simp)
      have hfire : seedRuns (setTraining (QState.fresh b0 w0) c.1) = true := by
        simp [seedRuns, setTraining, QState.fresh, hc]
      have h1 : ((VQVAEQuantize.forward kmeans Wp bp
          (setTraining (QState.fresh b0 w0) c.1) c.2).1).data_initialized ≠ 0 := by
        rw [forward_state_eq_seedStep]
        rw [seedStep_fired_flag kmeans _ _ hfire]
        norm_num
      have hrest := runCalls_count_zero kmeans Wp bp _ rest h1
      simp only [runCalls, hfire, if_true]
      omega
  · intro st z
    have hf : seedRuns (setTraining st false) = false := by
      simp [seedRuns, setTraining]
    refine ⟨hf, ?_⟩
    rw [forward_state_eq_seedStep]
    simp [seedStep, hf]
  · intro st z h
    have hf : seedRuns st = false := by
      simp [seedRuns, h]
    refine ⟨hf, ?_⟩
    rw [forward_state_eq_seedStep]
    simp [seedStep, hf]

-- GumbelQuantize: hardness selection and hard sampling ---------------------

/-- Hardness selection at `model.py:90`:
`hard = self.straight_through if self.training else True`. -/
def gumbelHard (training straightThroughFlag : Bool) : Bool :=
  if training then straightThroughFlag else true

/-- One-hot row of length `n` with the 1 at position `i`
(`torch.zeros_like(...).scatter_(dim, index, 1.0)`). -/
def oneHot (n i : Nat) : List ℚ :=
  (List.range n).map (fun j => if j = i then 1 else 0)

/-- Value semantics of `torch.nn.functional.gumbel_softmax` at one
spatial location, modelled from the library function the code calls at
`model.py:93`: the relaxed sample `y_soft = softmax((logits + gumbels) / tau)`
is abstracted as an input (it contains the random Gumbel noise and the
transcendental softmax); with `hard=True` the function returns
`y_hard - y_soft.detach() + y_soft` where `y_hard` is the one-hot
scatter of the argmax of `y_soft`, and with `hard=False` it returns
`y_soft` itself. -/
def gumbel_softmax_sample (y_soft : List ℚ) (hard : Bool) : List ℚ :=
  if hard then
    List.zipWith (fun h s => h - detach s + s)
      (oneHot y_soft.length (argmaxFirst y_soft)) y_soft
  else y_soft

/-- A row is exactly one-hot: some in-range position holds 1 and every
other position holds 0. -/
def IsOneHot (l : List ℚ) : Prop :=
  ∃ i, i < l.length ∧ ∀ j, j < l.length → l.getD j 0 = if j = i then 1 else 0

theorem oneHot_length (n i : Nat) : (oneHot n i).length = n := by
  simp [oneHot]

theorem oneHot_getD (n i j : Nat) (hj : j < n) :
    (oneHot n i).getD j 0 = if j = i then 1 else 0 := by
  have := getD_map_lt (fun j => if j = i then (1 : ℚ) else 0) (List.range n) j
    (by simpa using hj) 0 0
  simp only [oneHot]
  rw [this]
  rw [List.getD_eq_getElem _ _ (by simpa using hj)]
  simp

theorem zipWith_hard_recomb (a b : List ℚ) (h : a.length = b.length) :
    List.zipWith (fun h s => h - detach s + s) a b = a := by
  induction a generalizing b with
  | nil => simp
  | cons x xs ih =>
    cases b with
    | nil => simp at h
    | cons y ys =>
      simp only [List.zipWith_cons_cons]
      have hx : x - detach y + y = x := by simp [detach]
      rw [ih ys (by simpa using h), hx]

/-- C5: in evaluation mode the Gumbel quantizer's per-location mixing
distribution is exactly one-hot for every value of the configured
`straight_through` flag (hardness is forced on), and in training mode
the hardness equals the configured flag. -/
theorem C5_eval_forces_one_hot (training straightThroughFlag : Bool)
    (y_soft : List ℚ) (hne : y_soft ≠ []) :
    (training = false →
      IsOneHot (gumbel_softmax_sample y_soft (gumbelHard training straightThroughFlag))) ∧
    (training = true → gumbelHard training straightThroughFlag = straightThroughFlag) := by
  constructor
  · intro ht
    subst ht
    have hhard : gumbelHard false straightThroughFlag = true := rfl
    rw [hhard]
    have heq : gumbel_softmax_sample y_soft true
        = oneHot y_soft.length (argmaxFirst y_soft) := by
      simp only [gumbel_softmax_sample, if_true]
      exact zipWith_hard_recomb _ _ (oneHot_length _ _)
    rw [heq]
    refine ⟨argmaxFirst y_soft, ?_, ?_⟩
    · rw [oneHot_length]
      exact argmaxFirst_lt_length y_soft hne
    · intro j hj
      rw [oneHot_length] at hj
      exact oneHot_getD _ _ j hj
  · intro ht
    subst ht
    rfl

/-- Concrete instance of `C5_eval_forces_one_hot`: evaluation mode,
`straight_through = false`, a two-category soft sample. -/
theorem C5_eval_forces_one_hot_witness :
    (([ (1 : ℚ)/3, 2/3 ] : List ℚ) ≠ []) ∧
    ((false = false →
      IsOneHot (gumbel_softmax_sample [(1 : ℚ)/3, 2/3] (gumbelHard false false))) ∧
    (false = true → gumbelHard false false = false)) :=
  ⟨by decide, C5_eval_forces_one_hot false false [(1 : ℚ)/3, 2/3] (by decide)⟩

-- Quantizer construction: flavor selection and defaults --------------------

/-- Configuration recorded by `GumbelQuantize.__init__` (`model.py:75-85`):
`embedding_dim`, `n_embed`, the `straight_through` flag (defaulting to
`True`), and the fixed `temperature = 1.0`. -/
structure GumbelQuantizeCfg where
  num_hiddens : Nat
  embedding_dim : Nat
  n_embed : Nat
  straight_through : Bool
  temperature : ℚ

/-- `GumbelQuantize.__init__` with its default argument
`straight_through=True` (`model.py:75`). -/
def GumbelQuantize.init (num_hiddens embedding_dim n_embed : Nat)
    (straightThroughFlag : Bool := true) : GumbelQuantizeCfg :=
  { num_hiddens := num_hiddens, embedding_dim := embedding_dim,
    n_embed := n_embed, straight_through := straightThroughFlag,
    temperature := 1 }

/-- Configuration recorded by `VQVAEQuantize.__init__` (`model.py:20-29`). -/
structure VQVAEQuantizeCfg where
  num_hiddens : Nat
  embedding_dim : Nat
  n_embed : Nat

/-- `VQVAEQuantize.__init__`. -/
def VQVAEQuantize.init (num_hiddens embedding_dim n_embed : Nat) :
    VQVAEQuantizeCfg :=
  { num_hiddens := num_hiddens, embedding_dim := embedding_dim,
    n_embed := n_embed }

/-- The `args.vq_flavor` selector string, as an enumeration: the dict
lookup at `model.py:147-150` accepts exactly these two keys. -/
inductive VQFlavor where
  | vqvae : VQFlavor
  | gumbel : VQFlavor

/-- The quantizer module held by a constructed `VQVAE`. -/
inductive QuantizerCfg where
  | vq : VQVAEQuantizeCfg → QuantizerCfg
  | gum : GumbelQuantizeCfg → QuantizerCfg

/-- Quantizer construction inside `VQVAE.__init__` (`model.py:147-151`):
`QuantizerModule(num_hiddens, embedding_dim, num_embeddings)` — exactly
three positional arguments for either flavor. -/
def VQVAE.initQuantizer (flavor : VQFlavor)
    (num_hiddens embedding_dim num_embeddings : Nat) : QuantizerCfg :=
  match flavor with
  | VQFlavor.vqvae => QuantizerCfg.vq (VQVAEQuantize.init num_hiddens embedding_dim num_embeddings)
  | VQFlavor.gumbel => QuantizerCfg.gum (GumbelQuantize.init num_hiddens embedding_dim num_embeddings)

/-- The `straight_through` flag of a constructed quantizer, when it has
one (only the Gumbel variant does). -/
def quantizerStraightThroughFlag : QuantizerCfg → Option Bool
  | QuantizerCfg.vq _ => none
  | QuantizerCfg.gum c => some c.straight_through

/-- C10: a `VQVAE` constructed with the gumbel flavor always carries a
`GumbelQuantize` with `straight_through = true`: the constructor passes
only the three positional arguments, so the default `True` applies and
no constructor path can set the flag to `False`. -/
theorem C10_gumbel_default_straight_through
    (num_hiddens embedding_dim num_embeddings : Nat) :
    VQVAE.initQuantizer VQFlavor.gumbel num_hiddens embedding_dim num_embeddings
      = QuantizerCfg.gum (GumbelQuantize.init num_hiddens embedding_dim num_embeddings) ∧
    quantizerStraightThroughFlag
      (VQVAE.initQuantizer VQFlavor.gumbel num_hiddens embedding_dim num_embeddings)
      = some true :=
  ⟨rfl, rfl⟩

/-- Concrete instance of `C3_seeding_once`: two training-mode calls on
a fresh instance fire the seeding block exactly once. -/
theorem C3_seeding_once_witness :
    (([(true, [[(1 : ℚ)]]), (true, [[(2 : ℚ)]])] : List (Bool × List (List ℚ))) ≠ [] ∧
      (∀ c ∈ ([(true, [[(1 : ℚ)]]), (true, [[(2 : ℚ)]])] : List (Bool × List (List ℚ))),
        (c : Bool × List (List ℚ)).1 = true)) ∧
    (runCalls (fun _ => [[(7 : ℚ)]]) [[(1 : ℚ)]] [0] (QState.fresh false [[(0 : ℚ)]])
      [(true, [[(1 : ℚ)]]), (true, [[(2 : ℚ)]])]).2 = 1 :=
  ⟨⟨by decide, by decide⟩,
    (C3_seeding_once (fun _ => [[(7 : ℚ)]]) [[(1 : ℚ)]] [0]).2.1 false [[(0 : ℚ)]]
      [(true, [[(1 : ℚ)]]), (true, [[(2 : ℚ)]])] (by decide) (by decide)⟩

-- GumbelQuantize: KL-to-uniform auxiliary loss (real-valued) ---------------

/-- Mean of a list of reals, `t.mean()` on a vector. -/
noncomputable def listMeanR (l : List ℝ) : ℝ := l.sum / (l.length : ℕ)

/-- `F.softmax(logits, dim=1)` at one spatial location. -/
noncomputable def softmaxR (l : List ℝ) : List ℝ :=
  l.map (fun x => Real.exp x / (l.map Real.exp).sum)

/-- The auxiliary loss of `GumbelQuantize.forward` (`model.py:96-99`):
`kld_scale * torch.sum(qy * torch.log(qy * self.n_embed + 1e-10), dim=1).mean()`
with `qy = F.softmax(logits, dim=1)` and `kld_scale = 5e-4`, over the
flattened grid of per-location logit rows. -/
noncomputable def gumbelKLDiff (n_embed : Nat) (logits : List (List ℝ)) : ℝ :=
  (5e-4 : ℝ) * listMeanR (logits.map (fun r =>
    ((softmaxR r).map (fun x => x * Real.log (x * (n_embed : ℝ) + 1e-10))).sum))

/-- The spec's formula for the same quantity, written as the spec
states it: 5e-4 times the mean over locations of the sum over the
`n_embed` categories of `q_k * log(q_k * n_embed + 1e-10)`, `q` being
the softmax of the logits at that location. -/
noncomputable def specGumbelKL (n_embed : Nat) (logits : List (List ℝ)) : ℝ :=
  (5e-4 : ℝ) * listMeanR (logits.map (fun r =>
    ∑ k ∈ Finset.range n_embed,
      (softmaxR r).getD k 0 * Real.log ((softmaxR r).getD k 0 * (n_embed : ℝ) + 1e-10)))

theorem list_sum_eq_range_getD (l : List ℝ) :
    l.sum = ∑ k ∈ Finset.range l.length, l.getD k 0 := by
  induction l with
  | nil => simp
  | cons x xs ih =>
    rw [List.sum_cons, ih]
    rw [List.length_cons, Finset.sum_range_succ']
    simp [add_comm]

/-- C6: for every logits grid whose rows have `n_embed` categories, the
Gumbel quantizer's auxiliary loss equals 5e-4 times the mean over all
locations of the sum over the `n_embed` categories of
`q_k * log(q_k * n_embed + 1e-10)` with `q` the softmax of the logits —
the KL divergence from the uniform categorical prior with the 1e-10
floor inside the logarithm. -/
theorem C6_gumbel_kl_loss (n_embed : Nat) (logits : List (List ℝ))
    (hrow : ∀ r ∈ logits, r.length = n_embed) :
    gumbelKLDiff n_embed logits = specGumbelKL n_embed logits := by
  simp only [gumbelKLDiff, specGumbelKL]
  congr 2
  apply List.map_congr_left
  intro r hr
  have hlen : ((softmaxR r).map
      (fun x => x * Real.log (x * (n_embed : ℝ) + 1e-10))).length = n_embed := by
    simp [softmaxR, hrow r hr]
  rw [list_sum_eq_range_getD, hlen]
  apply Finset.sum_congr rfl
  intro k hk
  have hk' : k < (softmaxR r).length := by
    simp only [softmaxR, List.length_map, hrow r hr]
    exact Finset.mem_range.mp hk
  exact getD_map_lt (fun x => x * Real.log (x * (n_embed : ℝ) + 1e-10))
    (softmaxR r) k hk' 0 0

/-- Concrete instance of `C6_gumbel_kl_loss`: one location, one
category. -/
theorem C6_gumbel_kl_loss_witness :
    (∀ r ∈ ([[(0 : ℝ)]] : List (List ℝ)), r.length = 1) ∧
    gumbelKLDiff 1 [[(0 : ℝ)]] = specGumbelKL 1 [[(0 : ℝ)]] :=
  ⟨by simp, C6_gumbel_kl_loss 1 [[(0 : ℝ)]] (by simp)⟩

-- VQVAE.configure_optimizers: weight-decay partition -----------------------

/-- Python's `str.endswith`, on the character lists of the strings
(kernel-computable). -/
def endswith (s pat : String) : Bool := pat.data.isSuffixOf s.data

/-- The module types relevant to the partition at `model.py:203-204`. -/
inductive MType where
  | linear : MType
  | conv2d : MType
  | convTranspose2d : MType
  | layerNorm : MType
  | batchNorm2d : MType
  | embeddingLayer : MType
  | otherModule : MType
deriving DecidableEq

/-- `whitelist_weight_modules = (torch.nn.Linear, torch.nn.Conv2d, torch.nn.ConvTranspose2d)`. -/
def isWhitelist : MType → Bool
  | MType.linear => true
  | MType.conv2d => true
  | MType.convTranspose2d => true
  | _ => false

/-- `blacklist_weight_modules = (torch.nn.LayerNorm, torch.nn.BatchNorm2d, torch.nn.Embedding)`. -/
def isBlacklist : MType → Bool
  | MType.layerNorm => true
  | MType.batchNorm2d => true
  | MType.embeddingLayer => true
  | _ => false

/-- One trainable parameter of the model: its full dotted name `fpn`,
the type of the module that directly owns it, and its name `pn`
relative to that owner. The nested `named_modules`/`named_parameters`
double loop at `model.py:205-217` visits each parameter once per
ancestor module, but non-owner visits never add it to either set
(`bias`-suffixed names land in `no_decay` with the same full name from
every visit, and `weight`-suffixed names only match a visit whose
module is an `isinstance` of a listed type, i.e. the leaf owner, since
the listed types have no submodules); so the classification depends
only on the owner's type and the owner-relative name. -/
structure PEntry where
  fpn : String
  owner : MType
  pn : String
deriving DecidableEq

/-- The if/elif classification at `model.py:209-217`: `some false`
means `no_decay`, `some true` means `decay`, `none` means neither set. -/
def classify (p : PEntry) : Option Bool :=
  if endswith p.pn "bias" then some false
  else if endswith p.pn "weight" && isWhitelist p.owner then some true
  else if endswith p.pn "weight" && isBlacklist p.owner then some false
  else none

/-- The `decay` name set (as the list of matching full names). -/
def decayNames (ps : List PEntry) : List String :=
  (ps.filter (fun p => classify p == some true)).map PEntry.fpn

/-- The `no_decay` name set. -/
def noDecayNames (ps : List PEntry) : List String :=
  (ps.filter (fun p => classify p == some false)).map PEntry.fpn

/-- The first `assert` at `model.py:223`: `decay & no_decay` is empty. -/
def decayDisjoint (ps : List PEntry) : Prop :=
  ∀ n ∈ decayNames ps, n ∉ noDecayNames ps

/-- The second `assert` at `model.py:224`: every trainable parameter
name is in `decay | no_decay`. -/
def decayCovers (ps : List PEntry) : Prop :=
  ∀ p ∈ ps, p.fpn ∈ decayNames ps ∨ p.fpn ∈ noDecayNames ps

instance (ps : List PEntry) : Decidable (decayDisjoint ps) := by
  unfold decayDisjoint
  infer_instance

instance (ps : List PEntry) : Decidable (decayCovers ps) := by
  unfold decayCovers
  infer_instance

/-- `VQVAE.configure_optimizers` (`model.py:198-234`), at the level of
the partition and its validation: a failed `assert` is a fatal
`AssertionError` at setup time, modelled as `Except.error`; on success
the two parameter groups are built from the sorted name sets. -/
def configure_optimizers (ps : List PEntry) : Except String (List String × List String) :=
  if decayDisjoint ps then
    if decayCovers ps then
      Except.ok ((decayNames ps).mergeSort (fun a b => a ≤ b),
        (noDecayNames ps).mergeSort (fun a b => a ≤ b))
    else Except.error "parameters were not separated into either decay/no_decay set!"
  else Except.error "parameters made it into both decay/no_decay sets!"

/-- Whether the optimizer setup succeeded. -/
def isOkB {α : Type} (e : Except String α) : Bool :=
  match e with
  | Except.ok _ => true
  | Except.error _ => false

/-- The trainable parameters of a `VQVAE` built with the default
architecture and the vqvae flavor (`model.py:124-161`): full names
from `named_parameters`, each with its owning module's type and the
owner-relative parameter name. -/
def vqvaeParams : List PEntry := [
  ⟨"encoder.0.weight", MType.conv2d, "weight"⟩,
  ⟨"encoder.0.bias", MType.conv2d, "bias"⟩,
  ⟨"encoder.2.weight", MType.conv2d, "weight"⟩,
  ⟨"encoder.2.bias", MType.conv2d, "bias"⟩,
  ⟨"encoder.4.weight", MType.conv2d, "weight"⟩,
  ⟨"encoder.4.bias", MType.conv2d, "bias"⟩,
  ⟨"encoder.6.conv.0.weight", MType.conv2d, "weight"⟩,
  ⟨"encoder.6.conv.0.bias", MType.conv2d, "bias"⟩,
  ⟨"encoder.6.conv.2.weight", MType.conv2d, "weight"⟩,
  ⟨"encoder.6.conv.2.bias", MType.conv2d, "bias"⟩,
  ⟨"encoder.7.conv.0.weight", MType.conv2d, "weight"⟩,
  ⟨"encoder.7.conv.0.bias", MType.conv2d, "bias"⟩,
  ⟨"encoder.7.conv.2.weight", MType.conv2d, "weight"⟩,
  ⟨"encoder.7.conv.2.bias", MType.conv2d, "bias"⟩,
  ⟨"quantizer.proj.weight", MType.conv2d, "weight"⟩,
  ⟨"quantizer.proj.bias", MType.conv2d, "bias"⟩,
  ⟨"quantizer.embed.weight", MType.embeddingLayer, "weight"⟩,
  ⟨"decoder.0.weight", MType.conv2d, "weight"⟩,
  ⟨"decoder.0.bias", MType.conv2d, "bias"⟩,
  ⟨"decoder.2.conv.0.weight", MType.conv2d, "weight"⟩,
  ⟨"decoder.2.conv.0.bias", MType.conv2d, "bias"⟩,
  ⟨"decoder.2.conv.2.weight", MType.conv2d, "weight"⟩,
  ⟨"decoder.2.conv.2.bias", MType.conv2d, "bias"⟩,
  ⟨"decoder.3.conv.0.weight", MType.conv2d, "weight"⟩,
  ⟨"decoder.3.conv.0.bias", MType.conv2d, "bias"⟩,
  ⟨"decoder.3.conv.2.weight", MType.conv2d, "weight"⟩,
  ⟨"decoder.3.conv.2.bias", MType.conv2d, "bias"⟩,
  ⟨"decoder.4.weight", MType.convTranspose2d, "weight"⟩,
  ⟨"decoder.4.bias", MType.convTranspose2d, "bias"⟩,
  ⟨"decoder.6.weight", MType.convTranspose2d, "weight"⟩,
  ⟨"decoder.6.bias", MType.convTranspose2d, "bias"⟩]

theorem mem_noDecay_of_classify (ps : List PEntry) (p : PEntry) (hp : p ∈ ps)
    (hc : classify p = some false) : p.fpn ∈ noDecayNames ps := by
  apply List.mem_map.mpr
  refine ⟨p, ?_, rfl⟩
  apply List.mem_filter.mpr
  exact ⟨hp, by simp [hc]⟩

theorem mem_decay_of_classify (ps : List PEntry) (p : PEntry) (hp : p ∈ ps)
    (hc : classify p = some true) : p.fpn ∈ decayNames ps := by
  apply List.mem_map.mpr
  refine ⟨p, ?_, rfl⟩
  apply List.mem_filter.mpr
  exact ⟨hp, by simp [hc]⟩

/-- C7: the optimizer setup partitions parameter names so that every
bias parameter and every weight of a normalization/embedding layer is
in the no-decay set, every weight of a linear/convolutional/transposed
convolutional layer is in the decay set; on the constructed VQVAE the
two sets are disjoint and cover every trainable parameter name, so the
setup succeeds; and in general the setup succeeds exactly when the
partition is a disjoint cover, failing fatally (an `AssertionError`,
modelled as `Except.error`) otherwise. -/
theorem C7_weight_decay_partition :
    (∀ ps : List PEntry, ∀ p ∈ ps, endswith p.pn "bias" = true →
      p.fpn ∈ noDecayNames ps) ∧
    (∀ ps : List PEntry, ∀ p ∈ ps, endswith p.pn "bias" = false →
      endswith p.pn "weight" = true → isWhitelist p.owner = true →
      p.fpn ∈ decayNames ps) ∧
    (∀ ps : List PEntry, ∀ p ∈ ps, endswith p.pn "bias" = false →
      endswith p.pn "weight" = true → isBlacklist p.owner = true →
      p.fpn ∈ noDecayNames ps) ∧
    decayDisjoint vqvaeParams ∧
    decayCovers vqvaeParams ∧
    isOkB (configure_optimizers vqvaeParams) = true ∧
    (∀ ps : List PEntry, isOkB (configure_optimizers ps) = true ↔
      (decayDisjoint ps ∧ decayCovers ps)) := by
  refine ⟨?_, ?_, ?_, by decide, by decide, by decide, ?_⟩
  · intro ps p hp hbias
    exact mem_noDecay_of_classify ps p hp (by simp [classify, hbias])
  · intro ps p hp hbias hweight hwhite
    exact mem_decay_of_classify ps p hp (by simp [classify, hbias, hweight, hwhite])
  · intro ps p hp hbias hweight hblack
    have hnw : isWhitelist p.owner = false := by
      cases hown : p.owner <;> simp_all [isWhitelist, isBlacklist]
    exact mem_noDecay_of_classify ps p hp
      (by simp [classify, hbias, hweight, hblack, hnw])
  · intro ps
    constructor
    · intro h
      by_cases h1 : decayDisjoint ps
      · by_cases h2 : decayCovers ps
        · exact ⟨h1, h2⟩
        · simp [configure_optimizers, isOkB, h1, h2] at h
      · simp [configure_optimizers, isOkB, h1] at h
    · rintro ⟨h1, h2⟩
      simp [configure_optimizers, isOkB, h1, h2]

/-- Concrete instance of `C7_weight_decay_partition`: a deliberately
introduced naming collision (two modules of conflicting types yielding
the same full parameter name) makes the optimizer setup fail. -/
theorem C7_weight_decay_partition_witness :
    isOkB (configure_optimizers
      [⟨"x.weight", MType.conv2d, "weight"⟩,
       ⟨"x.weight", MType.embeddingLayer, "weight"⟩]) = false := by
  have h := C7_weight_decay_partition.2.2.2.2.2.2
    [⟨"x.weight", MType.conv2d, "weight"⟩, ⟨"x.weight", MType.embeddingLayer, "weight"⟩]
  by_cases hb : isOkB (configure_optimizers
      [⟨"x.weight", MType.conv2d, "weight"⟩,
       ⟨"x.weight", MType.embeddingLayer, "weight"⟩]) = true
  · exact absurd (h.mp hb).1 (by decide)
  · simpa using hb

-- Shape law through Encoder -> Quantizer -> Decoder ------------------------

/-- A tensor shape `(C, H, W)` for one sample; the batch dimension is
carried unchanged by every layer and handled at the top level. -/
def Shape3 : Type := Nat × Nat × Nat

/-- Shape semantics of `nn.Conv2d(cin, cout, k, stride=s, padding=p)`:
requires the channel count to match and a non-degenerate output
(`k ≤ h + 2p`); output spatial size `(h + 2p - k) / s + 1`. A
mismatched input fails in the tensor layer, modelled as `none`. -/
def conv2dShape (cin cout k s p : Nat) (sh : Shape3) : Option Shape3 :=
  if sh.1 = cin ∧ k ≤ sh.2.1 + 2 * p ∧ k ≤ sh.2.2 + 2 * p then
    some (cout, (sh.2.1 + 2 * p - k) / s + 1, (sh.2.2 + 2 * p - k) / s + 1)
  else none

/-- Shape semantics of `nn.ConvTranspose2d(cin, cout, k, stride=s,
padding=p)`: output spatial size `(h - 1) * s - 2p + k` on a nonempty
input. -/
def convT2dShape (cin cout k s p : Nat) (sh : Shape3) : Option Shape3 :=
  if sh.1 = cin ∧ 1 ≤ sh.2.1 ∧ 1 ≤ sh.2.2 then
    some (cout, (sh.2.1 - 1) * s + k - 2 * p, (sh.2.2 - 1) * s + k - 2 * p)
  else none

/-- Shape semantics of `ResBlock(in_channel, channel)`
(`model.py:105-119`): Conv2d(in_channel, channel, 3, padding=1) then
Conv2d(channel, in_channel, 1); ReLU layers and the residual sum
preserve shape. -/
def resBlockShape (in_channel channel : Nat) (sh : Shape3) : Option Shape3 :=
  Option.bind (conv2dShape in_channel channel 3 1 1 sh)
    (conv2dShape channel in_channel 1 1 0)

/-- Shape semantics of the encoder stack (`model.py:136-145`). -/
def encoderShape (nh nrh : Nat) (sh : Shape3) : Option Shape3 :=
  Option.bind (Option.bind (Option.bind (Option.bind
    (conv2dShape 3 (nh / 2) 4 2 1 sh)
    (conv2dShape (nh / 2) nh 4 2 1))
    (conv2dShape nh nh 3 1 1))
    (resBlockShape nh nrh))
    (resBlockShape nh nrh)

/-- Shape semantics of the quantizer's output grid: the 1×1 projection
`self.proj` maps `num_hiddens` channels to `embedding_dim` channels and
preserves the spatial size; the gather/one-hot mixing and the
permutes preserve the projected shape (`model.py:35-62, 84-94`). -/
def quantizerShape (nh ed : Nat) (sh : Shape3) : Option Shape3 :=
  conv2dShape nh ed 1 1 0 sh

/-- Shape semantics of the decoder stack (`model.py:153-161`). -/
def decoderShape (nh nrh ed : Nat) (sh : Shape3) : Option Shape3 :=
  Option.bind (Option.bind (Option.bind (Option.bind
    (conv2dShape ed nh 3 1 1 sh)
    (resBlockShape nh nrh))
    (resBlockShape nh nrh))
    (convT2dShape nh (nh / 2) 4 2 1))
    (convT2dShape (nh / 2) 3 4 2 1)

/-- Shape semantics of `VQVAE.forward` (`model.py:163-167`) on one
sample. -/
def vqvaeShape (nh nrh ed : Nat) (sh : Shape3) : Option Shape3 :=
  Option.bind (Option.bind (encoderShape nh nrh sh)
    (quantizerShape nh ed))
    (decoderShape nh nrh ed)

/-- C9: for every input of shape `[B, 3, H, W]` with `H` and `W`
nonzero and divisible by 4, the encoder produces a
`[B, num_hiddens, H/4, W/4]` grid, the quantizer a
`[B, embedding_dim, H/4, W/4]` grid, and the full
Encoder → Quantizer → Decoder pass a reconstruction of shape exactly
`[B, 3, H, W]` (the batch dimension is carried unchanged by every
layer). -/
theorem C9_round_trip_shape (nh nrh ed H W : Nat)
    (hH4 : 4 ∣ H) (hW4 : 4 ∣ W) (hH : 0 < H) (hW : 0 < W) :
    encoderShape nh nrh (3, H, W) = some (nh, H / 4, W / 4) ∧
    quantizerShape nh ed (nh, H / 4, W / 4) = some (ed, H / 4, W / 4) ∧
    vqvaeShape nh nrh ed (3, H, W) = some (3, H, W) := by
  obtain ⟨m, rfl⟩ := hH4
  obtain ⟨l, rfl⟩ := hW4
  have hm : 1 ≤ m := by omega
  have hl : 1 ≤ l := by omega
  have e1 : conv2dShape 3 (nh / 2) 4 2 1 (3, 4 * m, 4 * l)
      = some (nh / 2, 2 * m, 2 * l) := by
    simp only [conv2dShape]
    rw [if_pos ⟨by trivial, by omega, by omega⟩]
    have h1 : (4 * m + 2 * 1 - 4) / 2 + 1 = 2 * m := by omega
    have h2 : (4 * l + 2 * 1 - 4) / 2 + 1 = 2 * l := by omega
    rw [h1, h2]
  have e2 : conv2dShape (nh / 2) nh 4 2 1 (nh / 2, 2 * m, 2 * l)
      = some (nh, m, l) := by
    simp only [conv2dShape]
    rw [if_pos ⟨by trivial, by omega, by omega⟩]
    have h1 : (2 * m + 2 * 1 - 4) / 2 + 1 = m := by omega
    have h2 : (2 * l + 2 * 1 - 4) / 2 + 1 = l := by omega
    rw [h1, h2]
  have e3 : ∀ c : Nat, conv2dShape c c 3 1 1 (c, m, l) = some (c, m, l) := by
    intro c
    simp only [conv2dShape]
    rw [if_pos ⟨by trivial, by omega, by omega⟩]
    have h1 : (m + 2 * 1 - 3) / 1 + 1 = m := by omega
    have h2 : (l + 2 * 1 - 3) / 1 + 1 = l := by omega
    rw [h1, h2]
  have e3' : ∀ c c' : Nat, conv2dShape c c' 3 1 1 (c, m, l) = some (c', m, l) := by
    intro c c'
    simp only [conv2dShape]
    rw [if_pos ⟨by trivial, by omega, by omega⟩]
    have h1 : (m + 2 * 1 - 3) / 1 + 1 = m := by omega
    have h2 : (l + 2 * 1 - 3) / 1 + 1 = l := by omega
    rw [h1, h2]
  have e4 : ∀ c c' : Nat, conv2dShape c c' 1 1 0 (c, m, l) = some (c', m, l) := by
    intro c c'
    simp only [conv2dShape]
    rw [if_pos ⟨by trivial, by omega, by omega⟩]
    have h1 : (m + 2 * 0 - 1) / 1 + 1 = m := by omega
    have h2 : (l + 2 * 0 - 1) / 1 + 1 = l := by omega
    rw [h1, h2]
  have eres : ∀ c ch : Nat, resBlockShape c ch (c, m, l) = some (c, m, l) := by
    intro c ch
    simp only [resBlockShape]
    rw [e3' c ch]
    simpa using e4 ch c
  have henc : encoderShape nh nrh (3, 4 * m, 4 * l) = some (nh, m, l) := by
    simp [encoderShape, e1, e2, e3, eres]
  have hquant : quantizerShape nh ed (nh, m, l) = some (ed, m, l) := by
    simpa [quantizerShape] using e4 nh ed
  have et1 : convT2dShape nh (nh / 2) 4 2 1 (nh, m, l)
      = some (nh / 2, 2 * m, 2 * l) := by
    simp only [convT2dShape]
    rw [if_pos ⟨by trivial, hm, hl⟩]
    have h1 : (m - 1) * 2 + 4 - 2 * 1 = 2 * m := by omega
    have h2 : (l - 1) * 2 + 4 - 2 * 1 = 2 * l := by omega
    rw [h1, h2]
  have et2 : convT2dShape (nh / 2) 3 4 2 1 (nh / 2, 2 * m, 2 * l)
      = some (3, 4 * m, 4 * l) := by
    simp only [convT2dShape]
    rw [if_pos ⟨by trivial, by omega, by omega⟩]
    have h1 : (2 * m - 1) * 2 + 4 - 2 * 1 = 4 * m := by omega
    have h2 : (2 * l - 1) * 2 + 4 - 2 * 1 = 4 * l := by omega
    rw [h1, h2]
  have hdec : decoderShape nh nrh ed (ed, m, l) = some (3, 4 * m, 4 * l) := by
    simp [decoderShape, e3', eres, et1, et2]
  have hm4 : 4 * m / 4 = m := by omega
  have hl4 : 4 * l / 4 = l := by omega
  rw [hm4, hl4]
  refine ⟨henc, hquant, ?_⟩
  simp [vqvaeShape, henc, hquant, hdec]

/-- Concrete instance of `C9_round_trip_shape`: the default
architecture (`num_hiddens=128`, `num_residual_hiddens=32`,
`embedding_dim=64`) on a 4×4 RGB input. -/
theorem C9_round_trip_shape_witness :
    ((4 : Nat) ∣ 4 ∧ (4 : Nat) ∣ 4 ∧ (0 : Nat) < 4) ∧
    (encoderShape 128 32 (3, 4, 4) = some (128, 4 / 4, 4 / 4) ∧
    quantizerShape 128 64 (128, 4 / 4, 4 / 4) = some (64, 4 / 4, 4 / 4) ∧
    vqvaeShape 128 32 64 (3, 4, 4) = some (3, 4, 4)) :=
  ⟨⟨by decide, by decide, by decide⟩,
    C9_round_trip_shape 128 32 64 4 4 (by decide) (by decide) (by decide) (by decide)⟩

-- Validation perplexity diagnostic -----------------------------------------

/-- `avg_probs` at `model.py:181-182`: the one-hot encodings of the
flattened index grid, averaged over locations — entry `k` is the
fraction of locations that selected code `k`. -/
noncomputable def avg_probs (n : Nat) (ind : List Nat) : List ℝ :=
  (List.range n).map (fun k => ((ind.count k : ℕ) : ℝ) / ((ind.length : ℕ) : ℝ))

/-- `perplexity` at `model.py:183`:
`(-(avg_probs * torch.log(avg_probs + 1e-10)).sum()).exp()`. -/
noncomputable def perplexity (p : List ℝ) : ℝ :=
  Real.exp (-(p.map (fun q => q * Real.log (q + 1e-10))).sum)

theorem sum_map_add_real (p : List ℝ) (f g : ℝ → ℝ) :
    (p.map (fun x => f x + g x)).sum = (p.map f).sum + (p.map g).sum := by
  induction p with
  | nil => simp
  | cons x xs ih =>
    simp only [List.map_cons, List.sum_cons, ih]
    ring

theorem sum_map_smul_real (p : List ℝ) (c : ℝ) (f : ℝ → ℝ) :
    (p.map (fun x => c * f x)).sum = c * (p.map f).sum := by
  induction p with
  | nil => simp
  | cons x xs ih =>
    simp only [List.map_cons, List.sum_cons, ih]
    ring

theorem sum_map_one_real (p : List ℝ) : (p.map (fun _ => (1 : ℝ))).sum = (p.length : ℝ) := by
  induction p with
  | nil => simp
  | cons x xs ih =>
    simp only [List.map_cons, List.sum_cons, ih, List.length_cons]
    push_cast
    ring

theorem list_range_map_sum {M : Type} [AddCommMonoid M] (n : Nat) (f : Nat → M) :
    ((List.range n).map f).sum = ∑ k ∈ Finset.range n, f k := by
  induction n with
  | zero => simp
  | succ m ih =>
    rw [List.range_succ, List.map_append, List.sum_append, Finset.sum_range_succ, ih]
    simp

/-- C8 counterexample: an index grid that uses exactly one code
(`n_embed = 2`, both locations selecting code 0) has perplexity
`1 / (1 + 1e-10) < 1` because of the 1e-10 floor inside the logarithm,
contradicting both "perplexity equals 1" for single-code usage and
"perplexity always lies in [1, n_embed]". -/
theorem C8_perplexity_counterexample :
    perplexity (avg_probs 2 [0, 0]) < 1 := by
  have h1 : avg_probs 2 [0, 0] = [1, 0] := by
    simp [avg_probs, List.range_succ]
  rw [h1]
  simp only [perplexity, List.map_cons, List.map_nil, List.sum_cons, List.sum_nil]
  rw [Real.exp_lt_one_iff]
  have hlog : 0 < Real.log (1 + 1e-10) := Real.log_pos (by norm_num)
  simp only [one_mul, zero_mul, add_zero]
  linarith

theorem entropyFloor_le_log (p : List ℝ) (hnn : ∀ x ∈ p, 0 ≤ x) (hsum : p.sum = 1)
    (hn : 1 ≤ p.length) :
    -(p.map (fun q => q * Real.log (q + 1e-10))).sum ≤ Real.log ((p.length : ℕ) : ℝ) := by
  have hnpos : (0 : ℝ) < (p.length : ℝ) := by exact_mod_cast Nat.lt_of_lt_of_le Nat.zero_lt_one hn
  have hn0 : ((p.length : ℕ) : ℝ) ≠ 0 := ne_of_gt hnpos
  have step1 : ∀ x ∈ p, x * (1 - 1 / ((p.length : ℝ) * (x + 1e-10)))
      ≤ x * Real.log ((p.length : ℝ) * (x + 1e-10)) := by
    intro x hx
    have hx0 := hnn x hx
    have hxe : (0 : ℝ) < x + 1e-10 := by
      have : (0 : ℝ) < 1e-10 := by norm_num
      linarith
    have hpos : 0 < (p.length : ℝ) * (x + 1e-10) := mul_pos hnpos hxe
    have hlog : 1 - 1 / ((p.length : ℝ) * (x + 1e-10))
        ≤ Real.log ((p.length : ℝ) * (x + 1e-10)) := by
      have hinv : Real.log ((p.length : ℝ) * (x + 1e-10))⁻¹
          ≤ ((p.length : ℝ) * (x + 1e-10))⁻¹ - 1 :=
        Real.log_le_sub_one_of_pos (inv_pos.mpr hpos)
      rw [Real.log_inv] at hinv
      rw [one_div]
      linarith
    exact mul_le_mul_of_nonneg_left hlog hx0
  have h2 := List.sum_le_sum step1
  have h3 : (p.map (fun x => x * (1 - 1 / ((p.length : ℝ) * (x + 1e-10))))).sum
      = p.sum - (1 / (p.length : ℝ)) * (p.map (fun x => x / (x + 1e-10))).sum := by
    have hcong : p.map (fun x => x * (1 - 1 / ((p.length : ℝ) * (x + 1e-10))))
        = p.map (fun x => x + (-(1 / (p.length : ℝ))) * (x / (x + 1e-10))) := by
      apply List.map_congr_left
      intro x hx
      have hxe : (0 : ℝ) < x + 1e-10 := by
        have : (0 : ℝ) < 1e-10 := by norm_num
        linarith [hnn x hx]
      have hxe0 : x + 1e-10 ≠ 0 := ne_of_gt hxe
      field_simp
      ring
    rw [hcong, sum_map_add_real p (fun x => x) (fun x => (-(1 / (p.length : ℝ))) * (x / (x + 1e-10))),
      sum_map_smul_real]
    rw [List.map_id']
    ring
  have h4 : (p.map (fun x => x / (x + 1e-10))).sum ≤ (p.length : ℝ) := by
    have hstep : ∀ x ∈ p, x / (x + 1e-10) ≤ (fun _ : ℝ => (1 : ℝ)) x := by
      intro x hx
      have hxe : (0 : ℝ) < x + 1e-10 := by
        have : (0 : ℝ) < 1e-10 := by norm_num
        linarith [hnn x hx]
      simp only []
      rw [div_le_one hxe]
      have : (0 : ℝ) < 1e-10 := by norm_num
      linarith
    have h5 := List.sum_le_sum hstep
    rw [sum_map_one_real] at h5
    exact h5
  have hkey : 0 ≤ (p.map (fun x => x * Real.log ((p.length : ℝ) * (x + 1e-10)))).sum := by
    have hcancel : (1 / (p.length : ℝ)) * (p.length : ℝ) = 1 := by
      field_simp
    have hnni : (0 : ℝ) ≤ 1 / (p.length : ℝ) := by positivity
    have hmul := mul_le_mul_of_nonneg_left h4 hnni
    have hlow : (0 : ℝ) ≤ (p.map (fun x => x * (1 - 1 / ((p.length : ℝ) * (x + 1e-10))))).sum := by
      rw [h3, hsum]
      linarith [hcancel, hmul]
    linarith [h2, hlow]
  have hsplit : p.map (fun x => x * Real.log ((p.length : ℝ) * (x + 1e-10)))
      = p.map (fun x => Real.log (p.length : ℝ) * x + x * Real.log (x + 1e-10)) := by
    apply List.map_congr_left
    intro x hx
    have hxe : (0 : ℝ) < x + 1e-10 := by
      have : (0 : ℝ) < 1e-10 := by norm_num
      linarith [hnn x hx]
    rw [Real.log_mul hn0 (ne_of_gt hxe)]
    ring
  rw [hsplit] at hkey
  rw [sum_map_add_real p (fun x => Real.log (p.length : ℝ) * x) (fun x => x * Real.log (x + 1e-10))] at hkey
  rw [sum_map_smul_real p (Real.log (p.length : ℝ)) (fun x => x)] at hkey
  rw [List.map_id'] at hkey
  rw [hsum, mul_one] at hkey
  linarith

theorem neg_log_le_entropyFloor (p : List ℝ) (hnn : ∀ x ∈ p, 0 ≤ x) (hsum : p.sum = 1) :
    -Real.log (1 + 1e-10) ≤ -(p.map (fun q => q * Real.log (q + 1e-10))).sum := by
  have hx1 : ∀ x ∈ p, x ≤ 1 := by
    intro x hx
    have := List.single_le_sum hnn x hx
    linarith [hsum ▸ this]
  have step : ∀ x ∈ p, x * Real.log (x + 1e-10) ≤ x * Real.log (1 + 1e-10) := by
    intro x hx
    have hx0 := hnn x hx
    have hxe : (0 : ℝ) < x + 1e-10 := by
      have : (0 : ℝ) < 1e-10 := by norm_num
      linarith
    apply mul_le_mul_of_nonneg_left _ hx0
    apply Real.log_le_log hxe
    linarith [hx1 x hx]
  have h2 := List.sum_le_sum step
  have h3 : (p.map (fun x => x * Real.log (1 + 1e-10))).sum = Real.log (1 + 1e-10) := by
    have hcong : p.map (fun x => x * Real.log (1 + 1e-10))
        = p.map (fun x => Real.log (1 + 1e-10) * x) := by
      apply List.map_congr_left
      intro x _
      ring
    rw [hcong, sum_map_smul_real p (Real.log (1 + 1e-10)) (fun x => x), List.map_id', hsum, mul_one]
  rw [h3] at h2
  linarith

theorem sum_map_div_real {α : Type} (l : List α) (f : α → ℝ) (c : ℝ) :
    (l.map (fun a => f a / c)).sum = (l.map f).sum / c := by
  induction l with
  | nil => simp
  | cons x xs ih =>
    simp only [List.map_cons, List.sum_cons, ih]
    ring

theorem sum_count_range (n : Nat) (ind : List Nat) (hlt : ∀ i ∈ ind, i < n) :
    ((List.range n).map (fun k => ind.count k)).sum = ind.length := by
  induction ind with
  | nil => simp
  | cons i tl ih =>
    have hi : i < n := hlt i (by simp)
    have htl := ih (fun j hj => hlt j (by simp [hj]))
    have hcong : (List.range n).map (fun k => (i :: tl).count k)
        = (List.range n).map (fun k => tl.count k + if i = k then 1 else 0) := by
      apply List.map_congr_left
      intro k _
      rw [List.count_cons]
      congr 1
      simp
    rw [hcong, list_range_map_sum, Finset.sum_add_distrib]
    rw [Finset.sum_ite_eq (Finset.range n) i (fun _ => 1)]
    rw [← list_range_map_sum n (fun k => tl.count k), htl]
    simp [Finset.mem_range.mpr hi]

theorem avg_probs_length (n : Nat) (ind : List Nat) : (avg_probs n ind).length = n := by
  simp [avg_probs]

theorem avg_probs_nonneg (n : Nat) (ind : List Nat) :
    ∀ x ∈ avg_probs n ind, 0 ≤ x := by
  intro x hx
  simp only [avg_probs, List.mem_map] at hx
  obtain ⟨k, _, rfl⟩ := hx
  positivity

theorem avg_probs_sum (n : Nat) (ind : List Nat) (hne : ind ≠ [])
    (hlt : ∀ i ∈ ind, i < n) : (avg_probs n ind).sum = 1 := by
  have hN : (0 : ℝ) < ((ind.length : ℕ) : ℝ) := by
    have : 0 < ind.length := List.length_pos.mpr hne
    exact_mod_cast this
  simp only [avg_probs]
  rw [sum_map_div_real]
  have hnum : ((List.range n).map (fun k => ((ind.count k : ℕ) : ℝ))).sum
      = ((ind.length : ℕ) : ℝ) := by
    rw [list_range_map_sum, ← Nat.cast_sum, ← list_range_map_sum n (fun k => ind.count k),
      sum_count_range n ind hlt]
  rw [hnum]
  exact div_self (ne_of_gt hN)

/-- C8 (amended): because of the 1e-10 floor inside the logarithm, the
validation perplexity of any index grid over `n` codes lies in
`[1/(1 + 1e-10), n]` (not `[1, n]`); perfectly uniform code usage
gives exactly `n / (1 + n * 1e-10)` — within floating tolerance of
`n_embed` — and single-code usage gives exactly `1 / (1 + 1e-10)`,
just below 1. -/
theorem C8_perplexity_amended (n : Nat) (ind : List Nat) (hn : 1 ≤ n)
    (hne : ind ≠ []) (hlt : ∀ i ∈ ind, i < n) :
    (1 / (1 + 1e-10) ≤ perplexity (avg_probs n ind) ∧
      perplexity (avg_probs n ind) ≤ (n : ℝ)) ∧
    ((∀ k, k < n → ind.count k * n = ind.length) →
      perplexity (avg_probs n ind) = (n : ℝ) / (1 + (n : ℝ) * 1e-10)) ∧
    ((∃ c, ∀ i ∈ ind, i = c) →
      perplexity (avg_probs n ind) = 1 / (1 + 1e-10)) := by
  have hnn := avg_probs_nonneg n ind
  have hsum := avg_probs_sum n ind hne hlt
  have hlen := avg_probs_length n ind
  have hnR : (0 : ℝ) < (n : ℝ) := by
    exact_mod_cast Nat.lt_of_lt_of_le Nat.zero_lt_one hn
  have hNpos : 0 < ind.length := List.length_pos.mpr hne
  have hNR : (0 : ℝ) < ((ind.length : ℕ) : ℝ) := by exact_mod_cast hNpos
  refine ⟨⟨?_, ?_⟩, ?_, ?_⟩
  · -- lower bound
    have h := neg_log_le_entropyFloor (avg_probs n ind) hnn hsum
    have h2 := Real.exp_le_exp.mpr h
    rw [Real.exp_neg, Real.exp_log (by norm_num : (0 : ℝ) < 1 + 1e-10)] at h2
    rw [one_div]
    exact h2
  · -- upper bound
    have h := entropyFloor_le_log (avg_probs n ind) hnn hsum (by rw [hlen]; exact hn)
    have h2 := Real.exp_le_exp.mpr h
    rw [hlen] at h2
    rw [Real.exp_log hnR] at h2
    exact h2
  · -- uniform usage
    intro huni
    have hcong : avg_probs n ind = (List.range n).map (fun _ => 1 / (n : ℝ)) := by
      simp only [avg_probs]
      apply List.map_congr_left
      intro k hk
      have hk' : k < n := List.mem_range.mp hk
      have hcast : ((ind.count k : ℕ) : ℝ) * (n : ℝ) = ((ind.length : ℕ) : ℝ) := by
        exact_mod_cast congrArg (Nat.cast : ℕ → ℝ) (huni k hk')
      rw [div_eq_div_iff (ne_of_gt hNR) (ne_of_gt hnR)]
      linarith
    have hS : ((avg_probs n ind).map (fun q => q * Real.log (q + 1e-10))).sum
        = Real.log (1 / (n : ℝ) + 1e-10) := by
      rw [hcong, List.map_map]
      rw [list_range_map_sum]
      simp only [Function.comp]
      rw [Finset.sum_const, Finset.card_range, nsmul_eq_mul]
      show (n : ℝ) * (1 / (n : ℝ) * Real.log (1 / (n : ℝ) + 1e-10)) = _
      field_simp
    have hpos : (0 : ℝ) < 1 / (n : ℝ) + 1e-10 := by positivity
    rw [perplexity, hS, Real.exp_neg, Real.exp_log hpos]
    rw [show (1 / (n : ℝ) + 1e-10) = (1 + (n : ℝ) * 1e-10) / (n : ℝ) by
      field_simp
      ring]
    rw [inv_div]
  · -- single-code usage
    rintro ⟨c, hc⟩
    obtain ⟨i0, hi0⟩ := List.exists_mem_of_ne_nil ind hne
    have hcn : c < n := by
      have := hlt i0 hi0
      rw [hc i0 hi0] at this
      exact this
    have hcount_c : ind.count c = ind.length := by
      rw [List.count_eq_length]
      intro b hb
      simp [hc b hb]
    have hcount_ne : ∀ k, k ≠ c → ind.count k = 0 := by
      intro k hk
      rw [List.count_eq_zero]
      intro hmem
      exact hk (hc k hmem)
    have hcong : avg_probs n ind
        = (List.range n).map (fun k => if k = c then (1 : ℝ) else 0) := by
      simp only [avg_probs]
      apply List.map_congr_left
      intro k _
      by_cases hkc : k = c
      · subst hkc
        rw [hcount_c, if_pos rfl]
        exact div_self (ne_of_gt hNR)
      · rw [hcount_ne k hkc, if_neg hkc]
        simp
    have hS : ((avg_probs n ind).map (fun q => q * Real.log (q + 1e-10))).sum
        = Real.log (1 + 1e-10) := by
      rw [hcong, List.map_map, list_range_map_sum]
      have hterm : ∀ k ∈ Finset.range n,
          ((fun q => q * Real.log (q + 1e-10)) ∘ fun k => if k = c then (1 : ℝ) else 0) k
            = if k = c then Real.log (1 + 1e-10) else 0 := by
        intro k _
        by_cases hkc : k = c
        · simp [hkc]
        · simp [hkc]
      rw [Finset.sum_congr rfl hterm]
      rw [Finset.sum_ite_eq' (Finset.range n) c (fun _ => Real.log (1 + 1e-10))]
      simp [Finset.mem_range.mpr hcn]
    rw [perplexity, hS, Real.exp_neg, Real.exp_log (by norm_num : (0 : ℝ) < 1 + 1e-10)]
    exact (one_div _).symm

/-- Concrete instance of `C8_perplexity_amended`: two codes, each used
exactly once. -/
theorem C8_perplexity_amended_witness :
    ((1 : Nat) ≤ 2 ∧ ([0, 1] : List Nat) ≠ [] ∧ (∀ i ∈ ([0, 1] : List Nat), i < 2)) ∧
    ((1 / (1 + 1e-10) ≤ perplexity (avg_probs 2 [0, 1]) ∧
      perplexity (avg_probs 2 [0, 1]) ≤ ((2 : Nat) : ℝ)) ∧
    ((∀ k, k < 2 → ([0, 1] : List Nat).count k * 2 = ([0, 1] : List Nat).length) →
      perplexity (avg_probs 2 [0, 1]) = ((2 : Nat) : ℝ) / (1 + ((2 : Nat) : ℝ) * 1e-10)) ∧
    ((∃ c, ∀ i ∈ ([0, 1] : List Nat), i = c) →
      perplexity (avg_probs 2 [0, 1]) = 1 / (1 + 1e-10))) :=
  ⟨⟨by decide, by decide, by decide⟩,
    C8_perplexity_amended 2 [0, 1] (by decide) (by decide) (by decide)⟩
